import Mathlib

/-!
Verification of the resource lifecycle manager in `src/mlx-server/server.py`
(ModelManager / RerankerManager): model catalog and alias resolution, slot
lifecycle with single-flight loading, capacity and idle (TTL) eviction, the
bounded embedding result cache, and rerank scoring/sorting.

Modelling conventions:
* Python dicts (insertion-ordered) are association lists `List (K × V)`;
  `dictGet`/`dictSet`/`dictDel` model `d[k]`, `d[k] = v`, `del d[k]`.
* Python strings used as cache fingerprints are modelled as `List Char`
  (`String.data`), so that `str.startswith` becomes `List.isPrefixOf`.
* Wall-clock timestamps (`time.time()`) are `Int` values supplied by the
  caller; traces carry a monotonicity hypothesis where it matters.
* The MLX inference engine is a black box (spec section 1): `load` outcomes
  and embedding/score values are supplied by oracle functions.  Two ghost
  counters (`load_count`, `forward_count`) count how many times the
  underlying `load(...)` call and the model forward pass execute.
-/

set_option maxRecDepth 100000

namespace MlxServer

/-! ## Python dict model -/

def dictGet {K V : Type} [DecidableEq K] (d : List (K × V)) (k : K) : Option V :=
  match d with
  | [] => none
  | (k', v) :: rest => if k' = k then some v else dictGet rest k

/-- `d[k] = v`: replace in place if the key is present, else append
(Python 3.7+ dicts preserve insertion order; updating keeps the position). -/
def dictSet {K V : Type} [DecidableEq K] (d : List (K × V)) (k : K) (v : V) : List (K × V) :=
  match d with
  | [] => [(k, v)]
  | (k', v') :: rest => if k' = k then (k', v) :: rest else (k', v') :: dictSet rest k v

/-- `del d[k]`. -/
def dictDel {K V : Type} [DecidableEq K] (d : List (K × V)) (k : K) : List (K × V) :=
  d.filter (fun e => !(decide (e.1 = k)))

@[simp] theorem dictGet_nil {K V : Type} [DecidableEq K] (k : K) :
    dictGet ([] : List (K × V)) k = none := rfl

@[simp] theorem dictGet_cons {K V : Type} [DecidableEq K] (k' : K) (v : V) (d : List (K × V)) (k : K) :
    dictGet ((k', v) :: d) k = if k' = k then some v else dictGet d k := rfl

theorem dictGet_dictSet_self {K V : Type} [DecidableEq K] (d : List (K × V)) (k : K) (v : V) :
    dictGet (dictSet d k v) k = some v := by
  induction d with
  | nil => simp [dictSet]
  | cons e rest ih =>
    obtain ⟨k', v'⟩ := e
    by_cases h : k' = k <;> simp [dictSet, h, ih]

theorem dictGet_dictSet_ne {K V : Type} [DecidableEq K] (d : List (K × V)) (k k₂ : K) (v : V)
    (hne : k ≠ k₂) : dictGet (dictSet d k v) k₂ = dictGet d k₂ := by
  induction d with
  | nil => simp [dictSet, hne]
  | cons e rest ih =>
    obtain ⟨k', v'⟩ := e
    by_cases h : k' = k
    · subst h; simp [dictSet, hne]
    · simp [dictSet, h, ih]

theorem dictGet_dictDel_self {K V : Type} [DecidableEq K] (d : List (K × V)) (k : K) :
    dictGet (dictDel d k) k = none := by
  induction d with
  | nil => simp [dictDel]
  | cons e rest ih =>
    obtain ⟨k', v'⟩ := e
    by_cases h : k' = k <;> simp_all [dictDel]

theorem dictGet_dictDel_ne {K V : Type} [DecidableEq K] (d : List (K × V)) (k k₂ : K)
    (hne : k ≠ k₂) : dictGet (dictDel d k) k₂ = dictGet d k₂ := by
  induction d with
  | nil => simp [dictDel]
  | cons e rest ih =>
    obtain ⟨k', v'⟩ := e
    by_cases h : k' = k
    · subst h; simp_all [dictDel, dictGet, Ne.symm hne]
    · by_cases h2 : k' = k₂ <;> simp_all [dictDel, dictGet]

theorem length_dictSet_le {K V : Type} [DecidableEq K] (d : List (K × V)) (k : K) (v : V) :
    (dictSet d k v).length ≤ d.length + 1 := by
  induction d with
  | nil => simp [dictSet]
  | cons e rest ih =>
    obtain ⟨k', v'⟩ := e
    by_cases h : k' = k
    · simp [dictSet, h]
    · simp only [dictSet, if_neg h, List.length_cons]
      omega

/-! ## Model catalog (`AVAILABLE_MODELS`, `MODEL_ALIASES`, defaults) -/

structure ModelInfo where
  aliases : List String  -- the "alias" entry of the config dict
  embedding_dim : Nat
  description : String
deriving DecidableEq

def DEFAULT_MODEL : String := "mlx-community/Qwen3-Embedding-0.6B-4bit-DWQ"

def AVAILABLE_MODELS : List (String × ModelInfo) :=
  [("mlx-community/Qwen3-Embedding-0.6B-4bit-DWQ",
    { aliases := ["small", "0.6b", "default"],
      embedding_dim := 1024,
      description := "Small 0.6B parameter model, fast and efficient (default)" }),
   ("mlx-community/Qwen3-Embedding-4B-4bit-DWQ",
    { aliases := ["medium", "4b"],
      embedding_dim := 2560,
      description := "Medium 4B parameter model, balanced performance" }),
   ("mlx-community/Qwen3-Embedding-8B-4bit-DWQ",
    { aliases := ["large", "8b"],
      embedding_dim := 4096,
      description := "Large 8B parameter model, higher quality (requires 32GB+ RAM)" }),
   ("mlx-community/embeddinggemma-300m-4bit",
    { aliases := ["embeddinggemma", "gemma", "gemma-300m"],
      embedding_dim := 768,
      description := "Google EmbeddingGemma 308M, 50% smaller than Qwen3-0.6B, MRL dimension support" })]

/-- Python `str.lower()` (character-wise, as used on ASCII aliases). -/
def lowerString (s : String) : String := ⟨s.data.map Char.toLower⟩

/-- `for model_name, config in AVAILABLE_MODELS.items(): for alias in config["alias"]:
    MODEL_ALIASES[alias.lower()] = model_name` -/
def MODEL_ALIASES : List (String × String) :=
  AVAILABLE_MODELS.foldl
    (fun acc p => p.2.aliases.foldl (fun acc2 a => dictSet acc2 (lowerString a) p.1) acc) []

/-- Configuration options relevant to the lifecycle manager. -/
structure ServerConfig where
  model_name : String
  idle_ttl_seconds : Int

/-! ## Errors raised by the manager -/

inductive MgrErr
  /-- `ValueError(f"Unknown model: ...")` from `_resolve_model_name`. -/
  | unknownModel (identifier : String)
  /-- `RuntimeError(f"Model loading failed: {e}")` wrapping the underlying cause. -/
  | loadError (cause : Nat)
  /-- `RuntimeError(f"Model {model_name} not ready ...")`. -/
  | notReady
  /-- A raw Python `KeyError` from an `AVAILABLE_MODELS[...]` subscript. -/
  | keyError
deriving DecidableEq

/-! ## Embedding result cache (`_embedding_cache`) -/

/-- `cache_key = f"{model_name}:{text}:{normalize}"` as a character list. -/
def mkCacheKey (model_name : String) (text : List Char) (normalize : Bool) : List Char :=
  model_name.data ++ ':' :: text ++ ':' :: (if normalize then "True".data else "False".data)

/-- The leading characters `f"{model_name}:"` used by `str.startswith` when purging. -/
def purgeMarker (model_name : String) : List Char := model_name.data ++ [':']

/-- `cache_keys_to_remove = [k for k in cache if k.startswith(f"{model_name}:")]; del ...`:
the entries that survive the purge. -/
def purge_model_entries (model_name : String) (cache : List (List Char × List Int)) :
    List (List Char × List Int) :=
  cache.filter (fun e => !((purgeMarker model_name).isPrefixOf e.1))

/-- `if len(self._embedding_cache) < 1000: self._embedding_cache[cache_key] = embedding` -/
def cache_put (cache : List (List Char × List Int)) (k : List Char) (v : List Int) :
    List (List Char × List Int) :=
  if cache.length < 1000 then dictSet cache k v else cache

/-- The operations that ever mutate `_embedding_cache`. -/
inductive CacheOp
  | put (k : List Char) (v : List Int)
  | purge (model_name : String)

def applyCacheOp (cache : List (List Char × List Int)) (op : CacheOp) :
    List (List Char × List Int) :=
  match op with
  | .put k v => cache_put cache k v
  | .purge mn => purge_model_entries mn cache

def runCacheOps (ops : List CacheOp) : List (List Char × List Int) :=
  ops.foldl applyCacheOp []

theorem length_applyCacheOp_le (cache : List (List Char × List Int)) (op : CacheOp)
    (h : cache.length ≤ 1000) : (applyCacheOp cache op).length ≤ 1000 := by
  cases op with
  | put k v =>
    simp only [applyCacheOp, cache_put]
    split
    · calc (dictSet cache k v).length ≤ cache.length + 1 := length_dictSet_le ..
        _ ≤ 1000 := by omega
    · exact h
  | purge mn =>
    calc (applyCacheOp cache (.purge mn)).length ≤ cache.length := List.length_filter_le ..
      _ ≤ 1000 := h

theorem length_runCacheOps_aux (ops : List CacheOp) (cache : List (List Char × List Int))
    (h : cache.length ≤ 1000) : (ops.foldl applyCacheOp cache).length ≤ 1000 := by
  induction ops generalizing cache with
  | nil => exact h
  | cons op rest ih => exact ih _ (length_applyCacheOp_le cache op h)

/-- C4: the cache size never exceeds 1000; a put at capacity is a no-op;
a put below capacity stores the entry. -/
theorem resultCache_bounded :
    (∀ ops : List CacheOp, (runCacheOps ops).length ≤ 1000) ∧
    (∀ cache k v, cache.length = 1000 → cache_put cache k v = cache) ∧
    (∀ cache k v, cache.length < 1000 →
      cache_put cache k v = dictSet cache k v) := by
  refine ⟨fun ops => length_runCacheOps_aux ops [] (by simp), ?_, ?_⟩
  · intro cache k v h
    simp [cache_put, h]
  · intro cache k v h
    simp [cache_put, h]

/-- Concrete cache holding exactly 1000 entries (distinct dummy fingerprints). -/
def dummyKey (i : Nat) : List Char := 'd' :: Nat.toDigits 10 i

def fullCache : List (List Char × List Int) :=
  (List.range 1000).map (fun i => (dummyKey i, [0]))

theorem resultCache_bounded_witness :
    cache_put fullCache (mkCacheKey DEFAULT_MODEL "t".data true) [7] = fullCache ∧
    (runCacheOps [.put "a".data [1], .put "a".data [2], .purge "a"]).length ≤ 1000 := by
  constructor
  · exact resultCache_bounded.2.1 fullCache _ [7] (by simp [fullCache])
  · exact resultCache_bounded.1 _

/-! ## Slot lifecycle state (`ModelManager` mutable attributes) -/

inductive ModelStatus
  | loading
  | ready
  | error
  | unloaded
deriving DecidableEq

/-- The mutable state of a `ModelManager`: the dicts `models` (name → handle),
`model_status`, `model_load_times`, `_embedding_cache`, `_last_used`, plus two ghost
counters: `load_count` counts executions of the underlying `load(...)` call and
`forward_count` counts inference forward passes.  Handles are opaque; we use the
index of the `load(...)` execution that produced them, so distinct loads yield
distinct handles. -/
structure MgrState where
  models : List (String × Nat)
  model_status : List (String × ModelStatus)
  model_load_times : List (String × Int)
  embedding_cache : List (List Char × List Int)
  last_used : List (String × Int)
  load_count : Nat
  forward_count : Nat
deriving DecidableEq

def initState : MgrState :=
  { models := [], model_status := [], model_load_times := [],
    embedding_cache := [], last_used := [], load_count := 0, forward_count := 0 }

/-- `self._last_used[model_name] = time.time()` -/
def _update_last_used (model_name : String) (t : Int) (s : MgrState) : MgrState :=
  { s with last_used := dictSet s.last_used model_name t }

/-- `ModelManager._unload_model`: remove the handle, mark UNLOADED, purge this
model's `_embedding_cache` entries (gc / Metal-cache clearing have no modelled
state). `_last_used` is not touched here. -/
def _unload_model (model_name : String) (s : MgrState) : MgrState :=
  if (dictGet s.models model_name).isNone then s
  else
    { s with
      models := dictDel s.models model_name,
      model_status := dictSet s.model_status model_name .unloaded,
      embedding_cache := purge_model_entries model_name s.embedding_cache }

/-- `self.max_loaded_models = 2` (embedding family). -/
def max_loaded_models : Nat := 2

/-- `ModelManager._manage_memory`: if at capacity, evict the first key in dict
iteration order other than the incoming one. -/
def _manage_memory (new_model : String) (s : MgrState) : MgrState :=
  if max_loaded_models ≤ s.models.length then
    match ((s.models.map Prod.fst).filter (fun m => !(decide (m = new_model)))).head? with
    | some evict_model => _unload_model evict_model s
    | none => s
  else s

/-- `ModelManager._resolve_model_name` (`if not model_identifier` covers both
`None` and the empty string). -/
def _resolve_model_name (cfg : ServerConfig) (model_identifier : Option String) :
    Except MgrErr String :=
  match model_identifier with
  | none => .ok cfg.model_name
  | some mid =>
    if mid = "" then .ok cfg.model_name
    else
      match dictGet MODEL_ALIASES (lowerString mid) with
      | some m => .ok m
      | none =>
        if (dictGet AVAILABLE_MODELS mid).isSome then .ok mid
        else .error (.unknownModel mid)

/-- Outcome of the n-th execution of the black-box `load(...)` call:
success, or failure with an opaque cause. -/
def LoadOracle : Type := Nat → Except Nat Unit

/-- `model_name in self.models and self.model_status.get(model_name) == READY`. -/
def isReadyWithModel (k : String) (s : MgrState) : Bool :=
  (dictGet s.models k).isSome && decide (dictGet s.model_status k = some .ready)

/-- First half of the critical section under the per-key lock, up to the point
where the underlying `load(...)` call starts: set status LOADING, run
`_manage_memory`, and count one execution of `load` (returning its index). -/
def load_enter (k : String) (s : MgrState) : MgrState × Nat :=
  let s1 := { s with model_status := dictSet s.model_status k .loading }
  let s2 := _manage_memory k s1
  ({ s2 with load_count := s2.load_count + 1 }, s2.load_count)

/-- Second half: the outcome of `load(...)` is applied.  On success the handle is
stored, warmup runs (its exceptions are all swallowed in the source, so it has no
modelled effect), `model_load_times` and status READY are set and `_last_used` is
stamped.  On failure the status becomes ERROR and a `loadError` wrapping the
underlying cause is raised; no handle is stored. -/
def load_finish (oracle : LoadOracle) (k : String) (attempt : Nat) (t : Int) (s : MgrState) :
    MgrState × Except MgrErr String :=
  match oracle attempt with
  | .ok _ =>
    let s3 := { s with models := dictSet s.models k attempt,
                       model_load_times := dictSet s.model_load_times k t }
    let s4 := { s3 with model_status := dictSet s3.model_status k .ready }
    (_update_last_used k t s4, .ok k)
  | .error c =>
    ({ s with model_status := dictSet s.model_status k .error }, .error (.loadError c))

/-- `ModelManager.load_model` after name resolution, run sequentially (no other
task interleaves).  The fast-path READY check and the re-check under the per-key
lock coincide in a sequential run. -/
def load_model_resolved (oracle : LoadOracle) (k : String) (t : Int) (s : MgrState) :
    MgrState × Except MgrErr String :=
  if isReadyWithModel k s then (s, .ok k)
  else
    let (s1, attempt) := load_enter k s
    load_finish oracle k attempt t s1

/-- `ModelManager.load_model` (sequential): resolve, then load. -/
def load_model (cfg : ServerConfig) (oracle : LoadOracle) (ident : Option String) (t : Int)
    (s : MgrState) : MgrState × Except MgrErr String :=
  match _resolve_model_name cfg ident with
  | .error e => (s, .error e)
  | .ok mn => load_model_resolved oracle mn t s

/-! ## `generate_embeddings` -/

/-- Black-box embedding computation: tokenizer + truncation + forward pass +
pooling + optional normalization, per (model, text, normalize). -/
def EmbedOracle : Type := String → List Char → Bool → List Int

/-- One iteration of the `for text in texts` loop: cache hit appends the cached
vector; a miss runs the forward pass (counted) and stores the result if the
cache is below capacity. -/
def embedOne (emb : EmbedOracle) (model_name : String) (normalize : Bool)
    (acc : MgrState × List (List Int)) (text : List Char) : MgrState × List (List Int) :=
  let cache_key := mkCacheKey model_name text normalize
  match dictGet acc.1.embedding_cache cache_key with
  | some v => (acc.1, acc.2 ++ [v])
  | none =>
    let v := emb model_name text normalize
    let s1 := { acc.1 with forward_count := acc.1.forward_count + 1 }
    let s2 := { s1 with embedding_cache := cache_put s1.embedding_cache cache_key v }
    (s2, acc.2 ++ [v])

/-- `ModelManager.generate_embeddings`.  `keyError` models a raw Python
`KeyError` (from `self.models[...]` or `AVAILABLE_MODELS[...]`). -/
def generate_embeddings (cfg : ServerConfig) (oracle : LoadOracle) (emb : EmbedOracle)
    (texts : List (List Char)) (ident : Option String) (normalize : Bool) (t : Int)
    (s : MgrState) : MgrState × Except MgrErr (List (List Int) × String × Nat) :=
  match load_model cfg oracle ident t s with
  | (s1, .error e) => (s1, .error e)
  | (s1, .ok model_name) =>
    let s2 := _update_last_used model_name t s1
    if dictGet s2.model_status model_name ≠ some .ready then (s2, .error .notReady)
    else if texts.isEmpty then
      match dictGet AVAILABLE_MODELS model_name with
      | none => (s2, .error .keyError)
      | some info => (s2, .ok ([], model_name, info.embedding_dim))
    else if (dictGet s2.models model_name).isNone then (s2, .error .keyError)
    else
      match dictGet AVAILABLE_MODELS model_name with
      | none => (s2, .error .keyError)
      | some info =>
        let r := texts.foldl (embedOne emb model_name normalize) (s2, [])
        (r.1, .ok (r.2, model_name, info.embedding_dim))

/-! ## `get_status` -/

structure ModelStatusEntry where
  status : ModelStatus
  model_name : String
  embedding_dim : Nat
  load_time : Option Int
  description : String
deriving DecidableEq

/-- `ModelManager.get_status`.  With a falsy `model_name` the summary branch runs,
which iterates only over catalog keys and has no fallible subscripts (summarised
as `none`); otherwise the identifier is resolved and the catalog consulted. -/
def get_status (cfg : ServerConfig) (ident : Option String) (s : MgrState) :
    Except MgrErr (Option ModelStatusEntry) :=
  match ident with
  | none => .ok none
  | some mid =>
    if mid = "" then .ok none
    else
      match _resolve_model_name cfg (some mid) with
      | .error e => .error e
      | .ok mn =>
        match dictGet AVAILABLE_MODELS mn with
        | none => .error .keyError
        | some info =>
          .ok (some
            { status := (dictGet s.model_status mn).getD .unloaded,
              model_name := mn,
              embedding_dim := info.embedding_dim,
              load_time := dictGet s.model_load_times mn,
              description := info.description })

/-! ## TTL checker (`_ttl_checker_loop` body) -/

/-- Body of the TTL checker's unload loop:
`self._unload_model(model_name); del self._last_used[model_name]`. -/
def ttl_unload_one (st : MgrState) (e : String × Int) : MgrState :=
  let st1 := _unload_model e.1 st
  { st1 with last_used := dictDel st1.last_used e.1 }

/-- One iteration of the idle-eviction loop at wall-clock time `now`: snapshot
`_last_used`, collect loaded models idle for at least `idle_ttl_seconds`, then
unload each and delete its `_last_used` entry. -/
def ttl_checker_tick (idle_ttl_seconds : Int) (now : Int) (s : MgrState) : MgrState :=
  let models_to_unload := s.last_used.filter
    (fun e => (dictGet s.models e.1).isSome && decide (now - e.2 ≥ idle_ttl_seconds))
  models_to_unload.foldl ttl_unload_one s

/-! ## Frame lemmas for eviction and capacity management -/

theorem head?_mem {α : Type} {l : List α} {a : α} (h : l.head? = some a) : a ∈ l := by
  cases l <;> simp_all

theorem unload_load_count (v : String) (s : MgrState) :
    (_unload_model v s).load_count = s.load_count := by
  unfold _unload_model; split <;> rfl

theorem unload_forward_count (v : String) (s : MgrState) :
    (_unload_model v s).forward_count = s.forward_count := by
  unfold _unload_model; split <;> rfl

theorem unload_last_used (v : String) (s : MgrState) :
    (_unload_model v s).last_used = s.last_used := by
  unfold _unload_model; split <;> rfl

theorem unload_models_other (v k : String) (s : MgrState) (h : v ≠ k) :
    dictGet (_unload_model v s).models k = dictGet s.models k := by
  unfold _unload_model; split
  · rfl
  · exact dictGet_dictDel_ne _ _ _ h

theorem unload_status_other (v k : String) (s : MgrState) (h : v ≠ k) :
    dictGet (_unload_model v s).model_status k = dictGet s.model_status k := by
  unfold _unload_model; split
  · rfl
  · exact dictGet_dictSet_ne _ _ _ _ h

theorem manage_memory_victim_ne {n : String} {s : MgrState} {v : String}
    (h : ((s.models.map Prod.fst).filter (fun m => !(decide (m = n)))).head? = some v) :
    v ≠ n := by
  have hv := head?_mem h
  simp only [List.mem_filter, Bool.not_eq_true', decide_eq_false_iff_not] at hv
  exact hv.2

theorem manage_memory_models_self (n : String) (s : MgrState) :
    dictGet (_manage_memory n s).models n = dictGet s.models n := by
  unfold _manage_memory
  split
  · split
    · next v hv => exact unload_models_other v n s (manage_memory_victim_ne hv)
    · rfl
  · rfl

theorem manage_memory_status_self (n : String) (s : MgrState) :
    dictGet (_manage_memory n s).model_status n = dictGet s.model_status n := by
  unfold _manage_memory
  split
  · split
    · next v hv => exact unload_status_other v n s (manage_memory_victim_ne hv)
    · rfl
  · rfl

theorem manage_memory_load_count (n : String) (s : MgrState) :
    (_manage_memory n s).load_count = s.load_count := by
  unfold _manage_memory
  split
  · split
    · next v _ => exact unload_load_count v s
    · rfl
  · rfl

theorem manage_memory_forward_count (n : String) (s : MgrState) :
    (_manage_memory n s).forward_count = s.forward_count := by
  unfold _manage_memory
  split
  · split
    · next v _ => exact unload_forward_count v s
    · rfl
  · rfl

theorem manage_memory_last_used (n : String) (s : MgrState) :
    (_manage_memory n s).last_used = s.last_used := by
  unfold _manage_memory
  split
  · split
    · next v _ => exact unload_last_used v s
    · rfl
  · rfl

/-! ## Outcomes of `load_model_resolved` -/

theorem load_model_resolved_ok {oracle : LoadOracle} {k : String} {t : Int} {s : MgrState}
    {s' : MgrState} {m : String}
    (h : load_model_resolved oracle k t s = (s', .ok m)) :
    m = k ∧ (dictGet s'.models k).isSome ∧ dictGet s'.model_status k = some .ready := by
  unfold load_model_resolved at h
  split at h
  · next hr =>
    rw [Prod.mk.injEq] at h
    obtain ⟨rfl, h2⟩ := h
    injection h2 with h2
    subst h2
    simp only [isReadyWithModel, Bool.and_eq_true, decide_eq_true_eq] at hr
    exact ⟨rfl, hr.1, hr.2⟩
  · simp only [load_enter, load_finish] at h
    split at h
    · rw [Prod.mk.injEq] at h
      obtain ⟨rfl, h2⟩ := h
      injection h2 with h2
      subst h2
      refine ⟨rfl, ?_, ?_⟩
    -- `_update_last_used` leaves `models` and `model_status` unchanged
      · simp [_update_last_used, dictGet_dictSet_self]
      · simp [_update_last_used, dictGet_dictSet_self]
    · exact absurd h (by simp)

theorem load_model_resolved_err {oracle : LoadOracle} {k : String} {t : Int} {s : MgrState}
    {s' : MgrState} {e : MgrErr}
    (h : load_model_resolved oracle k t s = (s', .error e)) :
    ∃ c, e = .loadError c := by
  unfold load_model_resolved at h
  split at h
  · exact absurd h (by simp)
  · simp only [load_enter, load_finish] at h
    split at h
    · exact absurd h (by simp)
    · next c _ =>
      rw [Prod.mk.injEq] at h
      obtain ⟨-, h2⟩ := h
      injection h2 with h2
      exact ⟨c, h2.symm⟩

/-- C3: a failing `load(...)` marks the slot ERROR, stores no handle, raises a
`loadError` wrapping the underlying cause, makes exactly one load attempt, and
leaves the slot ERROR; the next `load_model` call for the same key re-attempts
the load (ERROR → LOADING → READY on a successful retry). -/
theorem load_failure_marks_error (oracle : LoadOracle) (k : String) (t t2 : Int) (s : MgrState)
    (c : Nat)
    (hready : isReadyWithModel k s = false)
    (hmodels : dictGet s.models k = none)
    (hfail : oracle s.load_count = .error c)
    (hretry : oracle (s.load_count + 1) = .ok ()) :
    (load_model_resolved oracle k t s).2 = .error (.loadError c) ∧
    dictGet (load_model_resolved oracle k t s).1.model_status k = some .error ∧
    dictGet (load_model_resolved oracle k t s).1.models k = none ∧
    (load_model_resolved oracle k t s).1.load_count = s.load_count + 1 ∧
    (load_model_resolved oracle k t2 (load_model_resolved oracle k t s).1).2 = .ok k ∧
    dictGet (load_model_resolved oracle k t2
      (load_model_resolved oracle k t s).1).1.model_status k = some .ready ∧
    (dictGet (load_model_resolved oracle k t2
      (load_model_resolved oracle k t s).1).1.models k).isSome ∧
    (load_model_resolved oracle k t2
      (load_model_resolved oracle k t s).1).1.load_count = s.load_count + 2 := by
  have hlc : (_manage_memory k
      { s with model_status := dictSet s.model_status k .loading }).load_count = s.load_count := by
    rw [manage_memory_load_count]
  have step1 : load_model_resolved oracle k t s =
      ({ _manage_memory k { s with model_status := dictSet s.model_status k .loading } with
          load_count := (_manage_memory k
            { s with model_status := dictSet s.model_status k .loading }).load_count + 1,
          model_status := dictSet (_manage_memory k
            { s with model_status := dictSet s.model_status k .loading }).model_status k .error },
       .error (.loadError c)) := by
    unfold load_model_resolved
    rw [if_neg (by simp [hready])]
    simp only [load_enter, load_finish, hlc, hfail]
  rw [step1]
  have hm1 : dictGet (_manage_memory k
      { s with model_status := dictSet s.model_status k .loading }).models k = none := by
    rw [manage_memory_models_self]; exact hmodels
  refine ⟨rfl, by simp [dictGet_dictSet_self], by simpa using hm1, by simp [hlc], ?_⟩
  have hready2 : isReadyWithModel k
      ({ _manage_memory k { s with model_status := dictSet s.model_status k .loading } with
          load_count := (_manage_memory k
            { s with model_status := dictSet s.model_status k .loading }).load_count + 1,
          model_status := dictSet (_manage_memory k
            { s with model_status := dictSet s.model_status k .loading }).model_status k .error }) =
      false := by
    simp [isReadyWithModel, hm1]
  rw [load_model_resolved]
  rw [if_neg (by simp [hready2])]
  simp only [load_enter, load_finish]
  rw [manage_memory_load_count]
  simp only [hlc, hretry]
  simp [_update_last_used, dictGet_dictSet_self, manage_memory_load_count, hlc]

/-- Load oracle whose first attempt fails (cause 5) and later attempts succeed. -/
def failThenOk : LoadOracle := fun i => if i = 0 then .error 5 else .ok ()

theorem load_failure_marks_error_witness :
    (load_model_resolved failThenOk "m" 1 initState).2 = .error (.loadError 5) ∧
    dictGet (load_model_resolved failThenOk "m" 1 initState).1.model_status "m" =
      some .error ∧
    (load_model_resolved failThenOk "m" 2
      (load_model_resolved failThenOk "m" 1 initState).1).2 = .ok "m" := by
  have h := load_failure_marks_error failThenOk "m" 1 2 initState 5
    (by rfl) (by rfl) (by rfl) (by rfl)
  exact ⟨h.1, h.2.1, h.2.2.2.2.1⟩

/-- C5: with `max_loaded_models = 2`, loading three distinct keys A, B, C in
sequence (all loads succeeding) leaves exactly one of A, B evicted
(UNLOADED, handle removed) and the other READY. -/
theorem capacity_eviction_pattern (oracle : LoadOracle) (A B C : String) (t1 t2 t3 : Int)
    (hAB : A ≠ B) (hAC : A ≠ C) (hBC : B ≠ C) (ho : ∀ i, oracle i = .ok ()) :
    let s1 := (load_model_resolved oracle A t1 initState).1
    let s2 := (load_model_resolved oracle B t2 s1).1
    let s3 := (load_model_resolved oracle C t3 s2).1
    (dictGet s3.model_status A = some ModelStatus.unloaded ∧ dictGet s3.models A = none ∧
      dictGet s3.model_status B = some ModelStatus.ready ∧ (dictGet s3.models B).isSome) ∨
    (dictGet s3.model_status B = some ModelStatus.unloaded ∧ dictGet s3.models B = none ∧
      dictGet s3.model_status A = some ModelStatus.ready ∧ (dictGet s3.models A).isSome) := by
  simp [load_model_resolved, load_enter, load_finish, _manage_memory, _unload_model,
    _update_last_used, isReadyWithModel, max_loaded_models, initState, dictSet, dictDel,
    purge_model_entries, purgeMarker, ho, hAB, hAC, hBC,
    Ne.symm hAB, Ne.symm hAC, Ne.symm hBC]

theorem capacity_eviction_pattern_witness :
    let s1 := (load_model_resolved (fun _ => .ok ()) "a" 1 initState).1
    let s2 := (load_model_resolved (fun _ => .ok ()) "b" 2 s1).1
    let s3 := (load_model_resolved (fun _ => .ok ()) "c" 3 s2).1
    (dictGet s3.model_status "a" = some ModelStatus.unloaded ∧ dictGet s3.models "a" = none ∧
      dictGet s3.model_status "b" = some ModelStatus.ready ∧ (dictGet s3.models "b").isSome) ∨
    (dictGet s3.model_status "b" = some ModelStatus.unloaded ∧ dictGet s3.models "b" = none ∧
      dictGet s3.model_status "a" = some ModelStatus.ready ∧ (dictGet s3.models "a").isSome) :=
  capacity_eviction_pattern (fun _ => .ok ()) "a" "b" "c" 1 2 3
    (by decide) (by decide) (by decide) (fun _ => rfl)

/-! ## Resolution and catalog-lookup safety (C9) -/

theorem dictGet_mem_values {K V : Type} [DecidableEq K] (d : List (K × V)) (x : K) (m : V)
    (h : dictGet d x = some m) : m ∈ d.map Prod.snd := by
  induction d with
  | nil => simp at h
  | cons e rest ih =>
    obtain ⟨k', v'⟩ := e
    by_cases hk : k' = x
    · simp only [dictGet_cons, if_pos hk, Option.some.injEq] at h
      simp [h]
    · simp only [dictGet_cons, if_neg hk] at h
      simp [ih h]

theorem alias_values_in_catalog (x m : String) (h : dictGet MODEL_ALIASES x = some m) :
    (dictGet AVAILABLE_MODELS m).isSome := by
  have hm := dictGet_mem_values _ _ _ h
  have hall : (MODEL_ALIASES.map Prod.snd).all
      (fun v => (dictGet AVAILABLE_MODELS v).isSome) = true := by decide
  exact List.all_eq_true.mp hall m hm

theorem resolve_err_shape {cfg : ServerConfig} {mid : Option String} {e : MgrErr}
    (h : _resolve_model_name cfg mid = .error e) : ∃ x, e = .unknownModel x := by
  cases mid with
  | none => exact absurd h (by simp [_resolve_model_name])
  | some m =>
    simp only [_resolve_model_name] at h
    by_cases h1 : m = ""
    · rw [if_pos h1] at h
      exact absurd h (by simp)
    · rw [if_neg h1] at h
      cases h2 : dictGet MODEL_ALIASES (lowerString m) with
      | some m' =>
        rw [h2] at h
        exact absurd h (by simp)
      | none =>
        rw [h2] at h
        by_cases h3 : (dictGet AVAILABLE_MODELS m).isSome
        · rw [if_pos h3] at h
          exact absurd h (by simp)
        · rw [if_neg h3] at h
          injection h with h
          exact ⟨m, h.symm⟩

theorem resolve_some_in_catalog {cfg : ServerConfig} {mid m : String}
    (hmid : ¬ mid = "") (h : _resolve_model_name cfg (some mid) = .ok m) :
    (dictGet AVAILABLE_MODELS m).isSome := by
  simp only [_resolve_model_name] at h
  rw [if_neg hmid] at h
  cases halias : dictGet MODEL_ALIASES (lowerString mid) with
  | some m' =>
    rw [halias] at h
    injection h with h
    subst h
    exact alias_values_in_catalog _ _ halias
  | none =>
    rw [halias] at h
    by_cases h3 : (dictGet AVAILABLE_MODELS mid).isSome
    · rw [if_pos h3] at h
      injection h with h
      subst h
      exact h3
    · rw [if_neg h3] at h
      exact absurd h (by simp)

theorem get_status_no_keyError (cfg : ServerConfig) (ident : Option String) (s : MgrState) :
    get_status cfg ident s ≠ .error .keyError := by
  cases ident with
  | none => simp [get_status]
  | some mid =>
    simp only [get_status]
    by_cases hmid : mid = ""
    · simp [hmid]
    · rw [if_neg hmid]
      cases hres : _resolve_model_name cfg (some mid) with
      | error e =>
        obtain ⟨x, rfl⟩ := resolve_err_shape hres
        simp
      | ok mn =>
        obtain ⟨info, hinfo⟩ := Option.isSome_iff_exists.mp (resolve_some_in_catalog hmid hres)
        simp [hinfo]

theorem load_all_ok (oracle : LoadOracle) (k : String) (t : Int) (s : MgrState)
    (ho : ∀ i, oracle i = .ok ()) :
    (load_model_resolved oracle k t s).2 = .ok k := by
  unfold load_model_resolved
  split
  · rfl
  · simp [load_enter, load_finish, ho]

theorem generate_embeddings_no_keyError (cfg : ServerConfig) (oracle : LoadOracle)
    (emb : EmbedOracle) (texts : List (List Char)) (normalize : Bool) (t : Int) (s : MgrState)
    (hdef : (dictGet AVAILABLE_MODELS cfg.model_name).isSome) :
    (generate_embeddings cfg oracle emb texts none normalize t s).2 ≠ .error .keyError := by
  obtain ⟨info, hinfo⟩ := Option.isSome_iff_exists.mp hdef
  unfold generate_embeddings load_model _resolve_model_name
  cases hlm : load_model_resolved oracle cfg.model_name t s with
  | mk s1 r =>
    cases r with
    | error e =>
      obtain ⟨c, rfl⟩ := load_model_resolved_err hlm
      simp [hlm]
    | ok m =>
      obtain ⟨rfl, hms, hst⟩ := load_model_resolved_ok hlm
      have hst2 : dictGet (_update_last_used cfg.model_name t s1).model_status
          cfg.model_name = some ModelStatus.ready := by
        simpa [_update_last_used] using hst
      have hms2 : ¬ dictGet (_update_last_used cfg.model_name t s1).models
          cfg.model_name = none := by
        simp only [_update_last_used]
        exact Option.isSome_iff_ne_none.mp hms
      simp only [hlm]
      rw [if_neg (by simp [hst2])]
      by_cases htexts : texts.isEmpty
      · simp [htexts, hinfo]
      · simp only [htexts, if_false, Bool.false_eq_true]
        rw [if_neg (by simp [hms2])]
        simp [hinfo]

theorem generate_embeddings_default_keyError (cfg : ServerConfig) (oracle : LoadOracle)
    (emb : EmbedOracle) (normalize : Bool) (t : Int) (s : MgrState)
    (hdef : (dictGet AVAILABLE_MODELS cfg.model_name).isNone)
    (ho : ∀ i, oracle i = .ok ()) :
    (generate_embeddings cfg oracle emb [] none normalize t s).2 = .error .keyError := by
  unfold generate_embeddings load_model _resolve_model_name
  cases hlm : load_model_resolved oracle cfg.model_name t s with
  | mk s1 r =>
    have hr : r = .ok cfg.model_name := by
      have := load_all_ok oracle cfg.model_name t s ho
      rw [hlm] at this
      exact this
    subst hr
    obtain ⟨-, hms, hst⟩ := load_model_resolved_ok hlm
    have hst2 : dictGet (_update_last_used cfg.model_name t s1).model_status
        cfg.model_name = some ModelStatus.ready := by
      simpa [_update_last_used] using hst
    simp only [hlm]
    rw [if_neg (by simp [hst2])]
    simp [Option.isNone_iff_eq_none.mp hdef]

/-- C9: an empty or absent model identifier resolves to the configured default
without any catalog check; if the default is a catalog key, no
`AVAILABLE_MODELS[...]` lookup in `generate_embeddings` or `get_status` can
fail, while a default outside the catalog makes a request with no identifier
fail with a raw `KeyError` rather than the typed unknown-model error. -/
theorem default_resolution_unchecked :
    (∀ cfg : ServerConfig, _resolve_model_name cfg none = .ok cfg.model_name ∧
      _resolve_model_name cfg (some "") = .ok cfg.model_name) ∧
    (∀ (cfg : ServerConfig) (oracle : LoadOracle) (emb : EmbedOracle) (texts : List (List Char))
      (normalize : Bool) (t : Int) (s : MgrState),
      (dictGet AVAILABLE_MODELS cfg.model_name).isSome →
      (generate_embeddings cfg oracle emb texts none normalize t s).2 ≠ .error .keyError ∧
      ∀ ident, get_status cfg ident s ≠ .error .keyError) ∧
    (∀ (cfg : ServerConfig) (oracle : LoadOracle) (emb : EmbedOracle) (normalize : Bool)
      (t : Int) (s : MgrState),
      (dictGet AVAILABLE_MODELS cfg.model_name).isNone → (∀ i, oracle i = .ok ()) →
      (generate_embeddings cfg oracle emb [] none normalize t s).2 = .error .keyError ∧
      (generate_embeddings cfg oracle emb [] none normalize t s).2 ≠
        .error (.unknownModel cfg.model_name)) := by
  refine ⟨fun cfg => ⟨rfl, rfl⟩, ?_, ?_⟩
  · intro cfg oracle emb texts normalize t s hdef
    exact ⟨generate_embeddings_no_keyError cfg oracle emb texts normalize t s hdef,
      fun ident => get_status_no_keyError cfg ident s⟩
  · intro cfg oracle emb normalize t s hdef ho
    have h := generate_embeddings_default_keyError cfg oracle emb normalize t s hdef ho
    exact ⟨h, by rw [h]; simp⟩

theorem default_resolution_unchecked_witness :
    _resolve_model_name ⟨"no-such-model", 300⟩ none = .ok "no-such-model" ∧
    (generate_embeddings ⟨DEFAULT_MODEL, 300⟩ (fun _ => .ok ()) (fun _ _ _ => [1])
      ["t".data] none true 0 initState).2 ≠ .error .keyError ∧
    get_status ⟨DEFAULT_MODEL, 300⟩ (some "small") initState ≠ .error .keyError ∧
    (generate_embeddings ⟨"no-such-model", 300⟩ (fun _ => .ok ()) (fun _ _ _ => [1])
      [] none true 0 initState).2 = .error .keyError := by
  refine ⟨(default_resolution_unchecked.1 ⟨"no-such-model", 300⟩).1, ?_, ?_, ?_⟩
  · exact (default_resolution_unchecked.2.1 ⟨DEFAULT_MODEL, 300⟩ (fun _ => .ok ())
      (fun _ _ _ => [1]) ["t".data] true 0 initState (by decide)).1
  · exact (default_resolution_unchecked.2.1 ⟨DEFAULT_MODEL, 300⟩ (fun _ => .ok ())
      (fun _ _ _ => [1]) ["t".data] true 0 initState (by decide)).2 (some "small")
  · exact (default_resolution_unchecked.2.2 ⟨"no-such-model", 300⟩ (fun _ => .ok ())
      (fun _ _ _ => [1]) true 0 initState (by decide) (fun _ => rfl)).1

/-! ## Eviction purges exactly the evicted key's cache entries (C6) -/

def catalogKeys : List String := AVAILABLE_MODELS.map Prod.fst

theorem mkCacheKey_eq_marker_append (k : String) (text : List Char) (n : Bool) :
    mkCacheKey k text n = purgeMarker k ++ (text ++ ':' :: (if n then "True".data else "False".data)) := by
  simp [mkCacheKey, purgeMarker]

theorem marker_prefix_mkCacheKey (k : String) (text : List Char) (n : Bool) :
    (purgeMarker k).isPrefixOf (mkCacheKey k text n) = true := by
  rw [mkCacheKey_eq_marker_append]
  exact List.isPrefixOf_iff_prefix.mpr (List.prefix_append _ _)

theorem not_marker_prefix_of_other {k k' : String}
    (h1 : ¬ (purgeMarker k).isPrefixOf (purgeMarker k') = true)
    (h2 : ¬ (purgeMarker k').isPrefixOf (purgeMarker k) = true) (rest : List Char) :
    ¬ (purgeMarker k).isPrefixOf (purgeMarker k' ++ rest) = true := by
  intro h
  have hp := List.isPrefixOf_iff_prefix.mp h
  by_cases hlen : (purgeMarker k).length ≤ (purgeMarker k').length
  · exact h1 (List.isPrefixOf_iff_prefix.mpr
      (List.prefix_of_prefix_length_le hp (List.prefix_append _ _) hlen))
  · exact h2 (List.isPrefixOf_iff_prefix.mpr
      (List.prefix_of_prefix_length_le (List.prefix_append _ _) hp (by omega)))

/-- No catalog key's purge marker is a prefix of a different catalog key's marker. -/
theorem catalog_markers_separated : ∀ k ∈ catalogKeys, ∀ k' ∈ catalogKeys, k ≠ k' →
    (purgeMarker k).isPrefixOf (purgeMarker k') = false := by decide

/-- C6: evicting a resident key `k` leaves no cache entry fingerprinted with `k`,
and (for catalog keys, whose purge markers never collide) leaves every other
key's entries untouched. -/
theorem evict_purges_exactly_own_entries (k : String) (s : MgrState)
    (hk : (dictGet s.models k).isSome) :
    (∀ e ∈ (_unload_model k s).embedding_cache, ∀ text n, e.1 ≠ mkCacheKey k text n) ∧
    (∀ k', k' ∈ catalogKeys → k ∈ catalogKeys → k' ≠ k → ∀ text n v,
      ((mkCacheKey k' text n, v) ∈ s.embedding_cache ↔
        (mkCacheKey k' text n, v) ∈ (_unload_model k s).embedding_cache)) := by
  have hkne : ¬ (dictGet s.models k).isNone = true := by
    simp only [Option.isNone_iff_eq_none]
    exact Option.isSome_iff_ne_none.mp hk
  have hcache : (_unload_model k s).embedding_cache = purge_model_entries k s.embedding_cache := by
    unfold _unload_model
    rw [if_neg hkne]
  rw [hcache]
  constructor
  · intro e he text n habs
    simp only [purge_model_entries, List.mem_filter] at he
    have := he.2
    rw [habs] at this
    simp [marker_prefix_mkCacheKey] at this
  · intro k' hk' hkc hne text n v
    constructor
    · intro hmem
      simp only [purge_model_entries, List.mem_filter]
      refine ⟨hmem, ?_⟩
      have h1 := catalog_markers_separated k hkc k' hk' (Ne.symm hne)
      have h2 := catalog_markers_separated k' hk' k hkc hne
      have h1' : ¬ (purgeMarker k).isPrefixOf (purgeMarker k') = true := by simp [h1]
      have h2' : ¬ (purgeMarker k').isPrefixOf (purgeMarker k) = true := by simp [h2]
      have := not_marker_prefix_of_other h1' h2'
        (text ++ ':' :: (if n then "True".data else "False".data))
      rw [mkCacheKey_eq_marker_append]
      simp only [Bool.not_eq_true']
      exact Bool.not_eq_true _ ▸ (by simpa using this)
    · intro hmem
      simp only [purge_model_entries, List.mem_filter] at hmem
      exact hmem.1

theorem evict_purges_exactly_own_entries_witness :
    (dictGet ({ initState with
        models := [(DEFAULT_MODEL, 0)],
        embedding_cache := [(mkCacheKey DEFAULT_MODEL "a".data true, [1]),
          (mkCacheKey "mlx-community/embeddinggemma-300m-4bit" "b".data false, [2])] } :
        MgrState).models DEFAULT_MODEL).isSome ∧
    ((mkCacheKey "mlx-community/embeddinggemma-300m-4bit" "b".data false, ([2] : List Int)) ∈
      (_unload_model DEFAULT_MODEL { initState with
        models := [(DEFAULT_MODEL, 0)],
        embedding_cache := [(mkCacheKey DEFAULT_MODEL "a".data true, [1]),
          (mkCacheKey "mlx-community/embeddinggemma-300m-4bit" "b".data false, [2])] }).embedding_cache) := by
  refine ⟨by decide, ?_⟩
  refine ((evict_purges_exactly_own_entries DEFAULT_MODEL _ (by decide)).2
    "mlx-community/embeddinggemma-300m-4bit" (by decide) (by decide) (by decide)
    "b".data false [2]).mp ?_
  simp

/-! ## Rerank pipeline (`RerankerManager.rerank`)

Scores are rational numbers standing for the float softmax probabilities; only
their ordering matters to the claims.  `results.sort(key=lambda x: x[1],
reverse=True)` is Python's stable sort, sorting descending by score while
preserving the relative order of ties; a stable insertion sort is extensionally
that function. -/

def insertSorted {α : Type} (le : α → α → Bool) (a : α) : List α → List α
  | [] => [a]
  | b :: l => if le a b then a :: b :: l else b :: insertSorted le a l

def stableSortBy {α : Type} (le : α → α → Bool) : List α → List α
  | [] => []
  | a :: l => insertSorted le a (stableSortBy le l)

/-- Outcome of scoring document `idx`: `some score` on success, `none` when the
per-document `try` block raises (the document is then kept with score 0.0). -/
def ScoreOracle : Type := Nat → Option ℚ

def rerankLE (a b : Nat × ℚ × String) : Bool := decide (b.2.1 ≤ a.2.1)

/-- `RerankerManager.rerank` after the model is loaded: score each document
(failures degrade to score 0.0 without aborting), sort by score descending
(stable), and truncate when `top_k` is given and positive. -/
def rerank (score : ScoreOracle) (documents : List String) (top_k : Option Int) :
    List (Nat × ℚ × String) :=
  if documents = [] then []
  else
    let results := documents.enum.map (fun p =>
      match score p.1 with
      | some sc => (p.1, sc, p.2)
      | none => (p.1, (0 : ℚ), p.2))
    let sorted := stableSortBy rerankLE results
    match top_k with
    | some kk => if 0 < kk then sorted.take kk.toNat else sorted
    | none => sorted

/-! ### Stable sort lemmas -/

theorem insertSorted_perm {α : Type} (le : α → α → Bool) (a : α) (l : List α) :
    List.Perm (insertSorted le a l) (a :: l) := by
  induction l with
  | nil => simp [insertSorted]
  | cons b l ih =>
    simp only [insertSorted]
    split
    · exact List.Perm.refl _
    · exact (List.Perm.cons b ih).trans (List.Perm.swap a b l)

theorem stableSortBy_perm {α : Type} (le : α → α → Bool) (l : List α) :
    List.Perm (stableSortBy le l) l := by
  induction l with
  | nil => exact List.Perm.refl _
  | cons a l ih =>
    exact (insertSorted_perm le a (stableSortBy le l)).trans (List.Perm.cons a ih)

/-- Pairwise relation combining sortedness (descending scores) and stability
(ties keep strictly increasing original indices). -/
def RerankOrd (a b : Nat × ℚ × String) : Prop :=
  b.2.1 ≤ a.2.1 ∧ (a.2.1 = b.2.1 → a.1 < b.1)

theorem pairwise_insertSorted (a : Nat × ℚ × String) (l : List (Nat × ℚ × String))
    (hl : l.Pairwise RerankOrd)
    (ha : ∀ b ∈ l, a.2.1 = b.2.1 → a.1 < b.1) :
    (insertSorted rerankLE a l).Pairwise RerankOrd := by
  induction l with
  | nil => simp [insertSorted, RerankOrd]
  | cons b l ih =>
    simp only [insertSorted]
    split
    · next hle =>
      rw [rerankLE, decide_eq_true_eq] at hle
      refine List.Pairwise.cons ?_ hl
      intro c hc
      rcases List.mem_cons.mp hc with rfl | hc2
      · exact ⟨hle, ha c (by simp)⟩
      · have hbc := (List.pairwise_cons.mp hl).1 c hc2
        exact ⟨le_trans hbc.1 hle, ha c (by simp [hc2])⟩
    · next hle =>
      rw [rerankLE, decide_eq_true_eq] at hle
      push_neg at hle
      have hl' := List.pairwise_cons.mp hl
      refine List.Pairwise.cons ?_ (ih hl'.2 (fun c hc h => ha c (by simp [hc]) h))
      intro c hc
      have hc' := (insertSorted_perm rerankLE a l).mem_iff.mp hc
      rcases List.mem_cons.mp hc' with rfl | hc2
      · exact ⟨le_of_lt hle, fun h => absurd h.symm (ne_of_lt hle)⟩
      · exact hl'.1 c hc2

theorem pairwise_stableSortBy (l : List (Nat × ℚ × String))
    (hidx : l.Pairwise (fun a b => a.1 < b.1)) :
    (stableSortBy rerankLE l).Pairwise RerankOrd := by
  induction l with
  | nil => simp [stableSortBy]
  | cons a l ih =>
    have h := List.pairwise_cons.mp hidx
    refine pairwise_insertSorted a _ (ih h.2) ?_
    intro b hb _
    exact h.1 b ((stableSortBy_perm rerankLE l).mem_iff.mp hb)

theorem results_pairwise_idx (score : ScoreOracle) (documents : List String) :
    (documents.enum.map (fun p =>
      match score p.1 with
      | some sc => (p.1, sc, p.2)
      | none => (p.1, (0 : ℚ), p.2))).Pairwise (fun a b => a.1 < b.1) := by
  rw [List.pairwise_map]
  have h : (documents.enum.map Prod.fst).Pairwise (· < ·) := by
    rw [List.enum_map_fst]
    exact List.pairwise_lt_range _
  rw [List.pairwise_map] at h
  refine h.imp_of_mem ?_
  intro p q _ _ hpq
  cases hsp : score p.1 <;> cases hsq : score q.1 <;> simpa using hpq

theorem rerank_eq_take (score : ScoreOracle) (documents : List String) (kk : Int)
    (hkk : 0 < kk) :
    rerank score documents (some kk) = (rerank score documents none).take kk.toNat := by
  unfold rerank
  by_cases hd : documents = []
  · simp [hd]
  · simp [hd, hkk]

theorem rerank_nonpos_eq (score : ScoreOracle) (documents : List String) (kk : Int)
    (hkk : ¬ 0 < kk) :
    rerank score documents (some kk) = rerank score documents none := by
  unfold rerank
  by_cases hd : documents = []
  · simp [hd]
  · simp [hd, hkk]

theorem rerank_none_pairwise (score : ScoreOracle) (documents : List String) :
    (rerank score documents none).Pairwise RerankOrd := by
  unfold rerank
  by_cases hd : documents = []
  · simp [hd]
  · simp only [hd, if_false]
    exact pairwise_stableSortBy _ (results_pairwise_idx score documents)

/-- C7: the rerank result is sorted by score descending, ties preserve the
original input order, and a given positive `top_k` truncates to the first
`top_k` results. -/
theorem rerank_sorted_stable_topk (score : ScoreOracle) (documents : List String)
    (top_k : Option Int) :
    (rerank score documents top_k).Pairwise (fun a b => b.2.1 ≤ a.2.1) ∧
    (rerank score documents top_k).Pairwise (fun a b => a.2.1 = b.2.1 → a.1 < b.1) ∧
    (∀ kk : Int, top_k = some kk → 0 < kk →
      rerank score documents top_k = (rerank score documents none).take kk.toNat) := by
  have hmain : (rerank score documents top_k).Pairwise RerankOrd := by
    cases top_k with
    | none => exact rerank_none_pairwise score documents
    | some kk =>
      by_cases hkk : 0 < kk
      · rw [rerank_eq_take score documents kk hkk]
        exact (rerank_none_pairwise score documents).sublist (List.take_sublist _ _)
      · rw [rerank_nonpos_eq score documents kk hkk]
        exact rerank_none_pairwise score documents
  refine ⟨hmain.imp (fun h => h.1), hmain.imp (fun h => h.2), ?_⟩
  rintro kk rfl hkk
  exact rerank_eq_take score documents kk hkk

theorem rerank_sorted_stable_topk_witness :
    (rerank (fun i => if i = 0 then some (mkRat 1 2) else none) ["a", "b", "c"]
      (some 2)).Pairwise (fun a b => b.2.1 ≤ a.2.1) ∧
    rerank (fun i => if i = 0 then some (mkRat 1 2) else none) ["a", "b", "c"] (some 2) =
      (rerank (fun i => if i = 0 then some (mkRat 1 2) else none) ["a", "b", "c"] none).take 2 :=
  ⟨(rerank_sorted_stable_topk _ _ _).1,
   (rerank_sorted_stable_topk (fun i => if i = 0 then some (mkRat 1 2) else none)
      ["a", "b", "c"] (some 2)).2.2 2 rfl (by decide)⟩

/-- C10: with `top_k` absent the rerank result has exactly one tuple per input
document — the returned indices are a permutation of `0 .. len-1` and each
tuple carries the document at its index — regardless of which per-document
scorings fail. -/
theorem rerank_is_permutation (score : ScoreOracle) (documents : List String) :
    List.Perm ((rerank score documents none).map Prod.fst)
      (List.range documents.length) ∧
    ∀ r ∈ rerank score documents none, documents[r.1]? = some r.2.2 := by
  by_cases hd : documents = []
  · subst hd
    simp [rerank]
  · have hre : rerank score documents none = stableSortBy rerankLE
        (documents.enum.map (fun p =>
          match score p.1 with
          | some sc => (p.1, sc, p.2)
          | none => (p.1, (0 : ℚ), p.2))) := by
      simp [rerank, hd]
    constructor
    · rw [hre]
      have hperm := (stableSortBy_perm rerankLE
        (documents.enum.map (fun p =>
          match score p.1 with
          | some sc => (p.1, sc, p.2)
          | none => (p.1, (0 : ℚ), p.2)))).map Prod.fst
      refine hperm.trans ?_
      have : (documents.enum.map (fun p =>
          match score p.1 with
          | some sc => (p.1, sc, p.2)
          | none => (p.1, (0 : ℚ), p.2))).map Prod.fst = documents.enum.map Prod.fst := by
        rw [List.map_map]
        refine List.map_congr_left ?_
        intro p _
        rcases hs : score p.1 with _ | sc <;> simp [hs]
      rw [this, List.enum_map_fst]
    · intro r hr
      rw [hre] at hr
      have hr' := (stableSortBy_perm rerankLE _).mem_iff.mp hr
      rw [List.mem_map] at hr'
      obtain ⟨p, hp, hpr⟩ := hr'
      obtain ⟨i, d⟩ := p
      have hgoal := List.mem_enum_iff_getElem?.mp hp
      rcases hsc : score i with _ | sc <;> simp only [hsc] at hpr <;> rw [← hpr] <;>
        simpa using hgoal

theorem rerank_is_permutation_witness :
    List.Perm ((rerank (fun i => if i = 1 then none else some (mkRat 3 4))
      ["x", "y"] none).map Prod.fst) (List.range 2) ∧
    ∀ r ∈ rerank (fun i => if i = 1 then none else some (mkRat 3 4)) ["x", "y"] none,
      (["x", "y"] : List String)[r.1]? = some r.2.2 :=
  rerank_is_permutation (fun i => if i = 1 then none else some (mkRat 3 4)) ["x", "y"]

/-! ## Result-cache behaviour of repeated identical embedding requests (C8) -/

theorem embedOne_miss (emb : EmbedOracle) (k : String) (normalize : Bool) (s : MgrState)
    (acc : List (List Int)) (text : List Char)
    (hmiss : dictGet s.embedding_cache (mkCacheKey k text normalize) = none) :
    embedOne emb k normalize (s, acc) text =
      ({ s with forward_count := s.forward_count + 1,
                embedding_cache := cache_put s.embedding_cache
                  (mkCacheKey k text normalize) (emb k text normalize) },
       acc ++ [emb k text normalize]) := by
  simp [embedOne, hmiss]

theorem embedOne_hit (emb : EmbedOracle) (k : String) (normalize : Bool) (s : MgrState)
    (acc : List (List Int)) (text : List Char) (v : List Int)
    (hhit : dictGet s.embedding_cache (mkCacheKey k text normalize) = some v) :
    embedOne emb k normalize (s, acc) text = (s, acc ++ [v]) := by
  simp [embedOne, hhit]

theorem generate_single_ready (cfg : ServerConfig) (oracle : LoadOracle) (emb : EmbedOracle)
    (text : List Char) (normalize : Bool) (t : Int) (s : MgrState) (info : ModelInfo)
    (hready : isReadyWithModel cfg.model_name s = true)
    (hinfo : dictGet AVAILABLE_MODELS cfg.model_name = some info) :
    generate_embeddings cfg oracle emb [text] none normalize t s =
      ((embedOne emb cfg.model_name normalize (_update_last_used cfg.model_name t s, []) text).1,
       .ok ((embedOne emb cfg.model_name normalize
              (_update_last_used cfg.model_name t s, []) text).2,
            cfg.model_name, info.embedding_dim)) := by
  have hb := hready
  simp only [isReadyWithModel, Bool.and_eq_true, decide_eq_true_eq] at hb
  unfold generate_embeddings load_model _resolve_model_name load_model_resolved
  dsimp only
  rw [if_pos hready]
  dsimp only
  have hst2 : dictGet (_update_last_used cfg.model_name t s).model_status cfg.model_name =
      some ModelStatus.ready := by
    simpa [_update_last_used] using hb.2
  have hms2 : ¬ dictGet (_update_last_used cfg.model_name t s).models cfg.model_name = none := by
    simp only [_update_last_used]
    exact Option.isSome_iff_ne_none.mp hb.1
  rw [if_neg (by simp [hst2])]
  rw [if_neg (by simp)]
  rw [if_neg (by simp [hms2])]
  rw [hinfo]
  rfl

/-- C8 (amended): two identical `(key, text, normalize)` embedding requests,
where the key is resident and the cache was below capacity at the first
request, yield a bit-identical result on the second request, served from the
cache: the entry is stored by the first request and the second performs no
forward pass.  (The unamended claim fails when the cache is at capacity, see
the counterexample.) -/
theorem second_identical_request_cached (cfg : ServerConfig) (oracle : LoadOracle)
    (emb : EmbedOracle) (text : List Char) (normalize : Bool) (t1 t2 : Int) (s : MgrState)
    (hready : isReadyWithModel cfg.model_name s = true)
    (hcat : (dictGet AVAILABLE_MODELS cfg.model_name).isSome)
    (hmiss : dictGet s.embedding_cache (mkCacheKey cfg.model_name text normalize) = none)
    (hroom : s.embedding_cache.length < 1000) :
    (generate_embeddings cfg oracle emb [text] none normalize t2
        (generate_embeddings cfg oracle emb [text] none normalize t1 s).1).2 =
      (generate_embeddings cfg oracle emb [text] none normalize t1 s).2 ∧
    (generate_embeddings cfg oracle emb [text] none normalize t2
        (generate_embeddings cfg oracle emb [text] none normalize t1 s).1).1.forward_count =
      (generate_embeddings cfg oracle emb [text] none normalize t1 s).1.forward_count ∧
    (generate_embeddings cfg oracle emb [text] none normalize t1 s).1.forward_count =
      s.forward_count + 1 ∧
    dictGet (generate_embeddings cfg oracle emb [text] none normalize t1 s).1.embedding_cache
        (mkCacheKey cfg.model_name text normalize) =
      some (emb cfg.model_name text normalize) := by
  obtain ⟨info, hinfo⟩ := Option.isSome_iff_exists.mp hcat
  have hmiss1 : dictGet (_update_last_used cfg.model_name t1 s).embedding_cache
      (mkCacheKey cfg.model_name text normalize) = none := by
    simpa [_update_last_used] using hmiss
  have hg1 := generate_single_ready cfg oracle emb text normalize t1 s info hready hinfo
  rw [embedOne_miss emb cfg.model_name normalize _ [] text hmiss1] at hg1
  have hroom1 : (_update_last_used cfg.model_name t1 s).embedding_cache.length < 1000 := by
    simpa [_update_last_used] using hroom
  rw [show cache_put (_update_last_used cfg.model_name t1 s).embedding_cache
      (mkCacheKey cfg.model_name text normalize) (emb cfg.model_name text normalize) =
      dictSet (_update_last_used cfg.model_name t1 s).embedding_cache
      (mkCacheKey cfg.model_name text normalize) (emb cfg.model_name text normalize) from
      by simp [cache_put, hroom1]] at hg1
  have hcache1 : dictGet (generate_embeddings cfg oracle emb [text] none normalize t1
      s).1.embedding_cache (mkCacheKey cfg.model_name text normalize) =
      some (emb cfg.model_name text normalize) := by
    rw [hg1]
    exact dictGet_dictSet_self _ _ _
  have hready1 : isReadyWithModel cfg.model_name
      (generate_embeddings cfg oracle emb [text] none normalize t1 s).1 = true := by
    rw [hg1]
    simpa [isReadyWithModel, _update_last_used] using hready
  have hg2 := generate_single_ready cfg oracle emb text normalize t2
    (generate_embeddings cfg oracle emb [text] none normalize t1 s).1 info hready1 hinfo
  have hhit2 : dictGet (_update_last_used cfg.model_name t2
      (generate_embeddings cfg oracle emb [text] none normalize t1 s).1).embedding_cache
      (mkCacheKey cfg.model_name text normalize) =
      some (emb cfg.model_name text normalize) := by
    simpa [_update_last_used] using hcache1
  rw [embedOne_hit emb cfg.model_name normalize _ [] text _ hhit2] at hg2
  refine ⟨?_, ?_, ?_, hcache1⟩
  · rw [hg2, hg1]
  · rw [hg2, hg1]
    simp [_update_last_used]
  · rw [hg1]
    simp [_update_last_used]

/-- A state with the default model resident and an empty result cache. -/
def readyState : MgrState :=
  { initState with models := [(DEFAULT_MODEL, 0)],
                   model_status := [(DEFAULT_MODEL, ModelStatus.ready)] }

theorem second_identical_request_cached_witness :
    (generate_embeddings ⟨DEFAULT_MODEL, 300⟩ (fun _ => .ok ()) (fun _ _ _ => [42]) ["t".data]
        none true 1
        (generate_embeddings ⟨DEFAULT_MODEL, 300⟩ (fun _ => .ok ()) (fun _ _ _ => [42])
          ["t".data] none true 0 readyState).1).2 =
      (generate_embeddings ⟨DEFAULT_MODEL, 300⟩ (fun _ => .ok ()) (fun _ _ _ => [42])
        ["t".data] none true 0 readyState).2 ∧
    (generate_embeddings ⟨DEFAULT_MODEL, 300⟩ (fun _ => .ok ()) (fun _ _ _ => [42]) ["t".data]
        none true 1
        (generate_embeddings ⟨DEFAULT_MODEL, 300⟩ (fun _ => .ok ()) (fun _ _ _ => [42])
          ["t".data] none true 0 readyState).1).1.forward_count =
      (generate_embeddings ⟨DEFAULT_MODEL, 300⟩ (fun _ => .ok ()) (fun _ _ _ => [42])
        ["t".data] none true 0 readyState).1.forward_count := by
  have h := second_identical_request_cached ⟨DEFAULT_MODEL, 300⟩ (fun _ => .ok ())
    (fun _ _ _ => [42]) "t".data true 0 1 readyState
    (by decide) (by decide) (by decide) (by decide)
  exact ⟨h.1, h.2.1⟩

/-- A state with the default model resident and the result cache exactly at its
1000-entry capacity (with unrelated fingerprints). -/
def atCapacityState : MgrState :=
  { initState with models := [(DEFAULT_MODEL, 0)],
                   model_status := [(DEFAULT_MODEL, ModelStatus.ready)],
                   embedding_cache := fullCache }

/-- C8 as literally stated is false: when the result cache is at capacity, the
first request's vector is silently dropped, so the second identical request is
not served from the cache and runs the forward pass again (the ghost forward
counter reaches 2). -/
theorem second_identical_request_not_cached_at_capacity :
    (generate_embeddings ⟨DEFAULT_MODEL, 300⟩ (fun _ => .ok ()) (fun _ _ _ => [42]) ["t".data]
        none true 0 atCapacityState).2 = .ok ([[42]], DEFAULT_MODEL, 1024) ∧
    dictGet (generate_embeddings ⟨DEFAULT_MODEL, 300⟩ (fun _ => .ok ()) (fun _ _ _ => [42])
        ["t".data] none true 0 atCapacityState).1.embedding_cache
        (mkCacheKey DEFAULT_MODEL "t".data true) = none ∧
    (generate_embeddings ⟨DEFAULT_MODEL, 300⟩ (fun _ => .ok ()) (fun _ _ _ => [42]) ["t".data]
        none true 1
        (generate_embeddings ⟨DEFAULT_MODEL, 300⟩ (fun _ => .ok ()) (fun _ _ _ => [42])
          ["t".data] none true 0 atCapacityState).1).1.forward_count = 2 := by
  refine ⟨rfl, ?_, ?_⟩ <;> decide

/-! ## Idle-eviction timing (C2)

Traces of the manager from the TTL loop's point of view: successful loads,
successful request accesses (the `_update_last_used` refresh), and TTL ticks,
each stamped with the wall-clock time at which it runs. -/

inductive MgrEv
  | loadOk (k : String) (t : Int)
  | access (k : String) (t : Int)
  | tick (t : Int)

def evTime : MgrEv → Int
  | .loadOk _ t => t
  | .access _ t => t
  | .tick t => t

def stepEv (idle_ttl : Int) (s : MgrState) (e : MgrEv) : MgrState :=
  match e with
  | .loadOk k t => (load_model_resolved (fun _ => .ok ()) k t s).1
  | .access k t => _update_last_used k t s
  | .tick t => ttl_checker_tick idle_ttl t s

def runEv (idle_ttl : Int) (evs : List MgrEv) (s : MgrState) : MgrState :=
  evs.foldl (stepEv idle_ttl) s

/-! ### Dict key lemmas needed for trace reasoning -/

theorem dictGet_dictDel_sub {K V : Type} [DecidableEq K] (d : List (K × V)) (key k : K) (v : V)
    (h : dictGet (dictDel d key) k = some v) : dictGet d k = some v := by
  by_cases hk : key = k
  · subst hk
    rw [dictGet_dictDel_self] at h
    exact absurd h (by simp)
  · rwa [dictGet_dictDel_ne _ _ _ hk] at h

theorem mem_keys_dictSet {K V : Type} [DecidableEq K] (d : List (K × V)) (k x : K) (v : V)
    (h : x ∈ (dictSet d k v).map Prod.fst) : x ∈ d.map Prod.fst ∨ x = k := by
  induction d with
  | nil =>
    simp [dictSet] at h
    exact Or.inr h
  | cons e rest ih =>
    obtain ⟨k', v'⟩ := e
    by_cases hk : k' = k
    · simp only [dictSet, if_pos hk, List.map_cons] at h
      rcases List.mem_cons.mp h with rfl | h2
      · exact Or.inl (by simp)
      · exact Or.inl (by simp [h2])
    · simp only [dictSet, if_neg hk, List.map_cons] at h
      rcases List.mem_cons.mp h with rfl | h2
      · exact Or.inl (by simp)
      · rcases ih h2 with h3 | h3
        · exact Or.inl (by simp [h3])
        · exact Or.inr h3

theorem nodup_keys_dictSet {K V : Type} [DecidableEq K] (d : List (K × V)) (k : K) (v : V)
    (h : (d.map Prod.fst).Nodup) : ((dictSet d k v).map Prod.fst).Nodup := by
  induction d with
  | nil => simp [dictSet]
  | cons e rest ih =>
    obtain ⟨k', v'⟩ := e
    simp only [List.map_cons, List.nodup_cons] at h
    by_cases hk : k' = k
    · simp only [dictSet, if_pos hk, List.map_cons, List.nodup_cons]
      exact h
    · simp only [dictSet, if_neg hk, List.map_cons, List.nodup_cons]
      refine ⟨?_, ih h.2⟩
      intro hmem
      rcases mem_keys_dictSet rest k k' v hmem with h3 | h3
      · exact h.1 h3
      · exact hk h3

theorem nodup_keys_dictDel {K V : Type} [DecidableEq K] (d : List (K × V)) (k : K)
    (h : (d.map Prod.fst).Nodup) : ((dictDel d k).map Prod.fst).Nodup :=
  h.sublist ((List.filter_sublist d).map Prod.fst)

theorem dictGet_eq_of_mem_nodup {K V : Type} [DecidableEq K] {d : List (K × V)} {k : K} {v : V}
    (hnodup : (d.map Prod.fst).Nodup) (h : (k, v) ∈ d) : dictGet d k = some v := by
  induction d with
  | nil => simp at h
  | cons e rest ih =>
    obtain ⟨k', v'⟩ := e
    simp only [List.map_cons, List.nodup_cons] at hnodup
    rcases List.mem_cons.mp h with heq | h2
    · injection heq with h1 h2
      subst h1
      subst h2
      simp [dictGet]
    · have hkne : k' ≠ k := by
        intro hkk
        subst hkk
        exact hnodup.1 (by simpa using List.mem_map_of_mem Prod.fst h2)
      rw [dictGet_cons, if_neg hkne]
      exact ih hnodup.2 h2

/-! ### Shapes of `last_used` through the trace steps -/

theorem load_lastUsed_shape (oracle : LoadOracle) (k : String) (t : Int) (s : MgrState) :
    (load_model_resolved oracle k t s).1.last_used = s.last_used ∨
    (load_model_resolved oracle k t s).1.last_used = dictSet s.last_used k t := by
  unfold load_model_resolved
  split
  · exact Or.inl rfl
  · simp only [load_enter, load_finish]
    cases oracle ((_manage_memory k
        { s with model_status := dictSet s.model_status k .loading }).load_count) with
    | ok u =>
      right
      simp [_update_last_used, manage_memory_last_used]
    | error c =>
      left
      simp [manage_memory_last_used]

theorem foldl_ttl_unload_lastUsed_sub (L : List (String × Int)) (st : MgrState) (k : String)
    (lu : Int) (h : dictGet (L.foldl ttl_unload_one st).last_used k = some lu) :
    dictGet st.last_used k = some lu := by
  induction L generalizing st with
  | nil => exact h
  | cons e L ih =>
    have h2 := ih _ h
    dsimp only [ttl_unload_one] at h2
    rw [unload_last_used] at h2
    exact dictGet_dictDel_sub _ _ _ _ h2

theorem foldl_ttl_unload_keys_nodup (L : List (String × Int)) (st : MgrState)
    (h : (st.last_used.map Prod.fst).Nodup) :
    ((L.foldl ttl_unload_one st).last_used.map Prod.fst).Nodup := by
  induction L generalizing st with
  | nil => exact h
  | cons e L ih =>
    refine ih _ ?_
    dsimp only [ttl_unload_one]
    rw [unload_last_used]
    exact nodup_keys_dictDel _ _ h

theorem foldl_ttl_unload_models_other (L : List (String × Int)) (st : MgrState) (k : String)
    (hk : ∀ e ∈ L, e.1 ≠ k) :
    dictGet (L.foldl ttl_unload_one st).models k = dictGet st.models k := by
  induction L generalizing st with
  | nil => rfl
  | cons e L ih =>
    rw [List.foldl_cons, ih _ (fun e' he' => hk e' (by simp [he']))]
    dsimp only [ttl_unload_one]
    exact unload_models_other e.1 k st (hk e (by simp))

theorem tick_unload_expired (ttl now : Int) (k : String) (s : MgrState)
    (hnodup : (s.last_used.map Prod.fst).Nodup)
    (hsome : (dictGet s.models k).isSome)
    (hnone : (dictGet (ttl_checker_tick ttl now s).models k).isNone) :
    ∃ lu, dictGet s.last_used k = some lu ∧ ttl ≤ now - lu := by
  by_cases hmem : ∀ e ∈ s.last_used.filter
      (fun e => (dictGet s.models e.1).isSome && decide (now - e.2 ≥ ttl)), e.1 ≠ k
  · exfalso
    have heq := foldl_ttl_unload_models_other _ s k hmem
    unfold ttl_checker_tick at hnone
    rw [heq] at hnone
    rw [Option.isSome_iff_ne_none] at hsome
    exact hsome (Option.isNone_iff_eq_none.mp hnone)
  · push_neg at hmem
    obtain ⟨⟨k0, lu⟩, he, hk0⟩ := hmem
    simp only at hk0
    subst hk0
    rw [List.mem_filter] at he
    obtain ⟨hmem_lu, hcond⟩ := he
    simp only [Bool.and_eq_true, decide_eq_true_eq] at hcond
    exact ⟨lu, dictGet_eq_of_mem_nodup hnodup hmem_lu, hcond.2⟩

theorem stepEv_keys_nodup (ttl : Int) (s : MgrState) (e : MgrEv)
    (h : (s.last_used.map Prod.fst).Nodup) :
    ((stepEv ttl s e).last_used.map Prod.fst).Nodup := by
  cases e with
  | loadOk k t =>
    show ((load_model_resolved (fun _ => .ok ()) k t s).1.last_used.map Prod.fst).Nodup
    rcases load_lastUsed_shape (fun _ => .ok ()) k t s with hsh | hsh <;> rw [hsh]
    · exact h
    · exact nodup_keys_dictSet _ _ _ h
  | access k t =>
    exact nodup_keys_dictSet _ _ _ h
  | tick t =>
    exact foldl_ttl_unload_keys_nodup _ _ h

theorem runEv_keys_nodup (ttl : Int) (evs : List MgrEv) (s : MgrState)
    (h : (s.last_used.map Prod.fst).Nodup) :
    ((runEv ttl evs s).last_used.map Prod.fst).Nodup := by
  induction evs generalizing s with
  | nil => exact h
  | cons e evs ih => exact ih _ (stepEv_keys_nodup ttl s e h)

theorem runEv_lastUsed_ge (ttl : Int) (k : String) (ta : Int) (evs : List MgrEv) (s : MgrState)
    (hs : ∀ lu, dictGet s.last_used k = some lu → ta ≤ lu)
    (hts : ∀ e ∈ evs, ta ≤ evTime e) :
    ∀ lu, dictGet (runEv ttl evs s).last_used k = some lu → ta ≤ lu := by
  induction evs generalizing s with
  | nil => exact hs
  | cons e evs ih =>
    refine ih _ ?_ (fun e' he' => hts e' (by simp [he']))
    intro lu hlu
    cases e with
    | loadOk k' t =>
      replace hlu : dictGet (load_model_resolved (fun _ => .ok ()) k' t s).1.last_used k =
          some lu := hlu
      rcases load_lastUsed_shape (fun _ => .ok ()) k' t s with hsh | hsh <;> rw [hsh] at hlu
      · exact hs lu hlu
      · by_cases hkk : k' = k
        · subst hkk
          rw [dictGet_dictSet_self] at hlu
          injection hlu with hlu
          have h4 := hts (.loadOk k' t) (by simp)
          simp only [evTime] at h4
          omega
        · rw [dictGet_dictSet_ne _ _ _ _ hkk] at hlu
          exact hs lu hlu
    | access k' t =>
      replace hlu : dictGet (dictSet s.last_used k' t) k = some lu := hlu
      by_cases hkk : k' = k
      · subst hkk
        rw [dictGet_dictSet_self] at hlu
        injection hlu with hlu
        have h4 := hts (.access k' t) (by simp)
        simp only [evTime] at h4
        omega
      · rw [dictGet_dictSet_ne _ _ _ _ hkk] at hlu
        exact hs lu hlu
    | tick t =>
      exact hs lu (foldl_ttl_unload_lastUsed_sub _ _ _ _ hlu)

/-- C2: after a successful access to `k` at time `ta`, the recorded `last_used`
timestamp of `k` never falls below `ta` (later events carry times ≥ `ta`), and
whenever a TTL tick at time `now` unloads a loaded `k`, at least
`idle_ttl` seconds have elapsed since that access: `ta + idle_ttl ≤ now`. -/
theorem idle_loop_respects_last_access (idle_ttl : Int) (k : String) (ta now : Int)
    (pre mid : List MgrEv)
    (hmid : ∀ e ∈ mid, ta ≤ evTime e) :
    (∀ lu, dictGet (runEv idle_ttl (pre ++ .access k ta :: mid) initState).last_used k =
      some lu → ta ≤ lu) ∧
    ((dictGet (runEv idle_ttl (pre ++ .access k ta :: mid) initState).models k).isSome →
      (dictGet (ttl_checker_tick idle_ttl now
        (runEv idle_ttl (pre ++ .access k ta :: mid) initState)).models k).isNone →
      ta + idle_ttl ≤ now) := by
  have hsplit : runEv idle_ttl (pre ++ .access k ta :: mid) initState =
      runEv idle_ttl mid (stepEv idle_ttl (runEv idle_ttl pre initState) (.access k ta)) := by
    unfold runEv
    rw [List.foldl_append, List.foldl_cons]
  have hge : ∀ lu, dictGet (runEv idle_ttl (pre ++ .access k ta :: mid)
      initState).last_used k = some lu → ta ≤ lu := by
    rw [hsplit]
    refine runEv_lastUsed_ge idle_ttl k ta mid _ ?_ hmid
    intro lu hlu
    replace hlu : dictGet (dictSet (runEv idle_ttl pre initState).last_used k ta) k =
        some lu := hlu
    rw [dictGet_dictSet_self] at hlu
    injection hlu with hlu
    omega
  refine ⟨hge, ?_⟩
  intro hsome hnone
  have hnodup : ((runEv idle_ttl (pre ++ .access k ta :: mid)
      initState).last_used.map Prod.fst).Nodup :=
    runEv_keys_nodup _ _ _ (by simp [initState])
  obtain ⟨lu, hlu, hexp⟩ := tick_unload_expired idle_ttl now k _ hnodup hsome hnone
  have := hge lu hlu
  omega

theorem idle_loop_respects_last_access_witness :
    (dictGet (runEv 5 [MgrEv.loadOk "m" 0, MgrEv.access "m" 10] initState).models "m").isSome ∧
    ((dictGet (ttl_checker_tick 5 30
      (runEv 5 [MgrEv.loadOk "m" 0, MgrEv.access "m" 10] initState)).models "m").isNone) ∧
    (10 : Int) + 5 ≤ 30 := by
  refine ⟨by decide, by decide, ?_⟩
  exact (idle_loop_respects_last_access 5 "m" 10 30 [MgrEv.loadOk "m" 0] []
    (by intro e he; simp at he)).2 (by decide) (by decide)

/-! ## Single-flight concurrency machine (C1)

An interleaving model of concurrent `load_model(k)` tasks for one key `k` on the
asyncio event loop.  A task yields control only where the source can suspend:
waiting on the per-key lock, and during the underlying `load(...)` call (the
code between acquiring the lock and the `load` call, and between its return and
the lock release, contains no suspension points, so those sections are atomic
steps).  The thin global lock is held only for lock-table bookkeeping without
suspension points, so it never blocks and needs no explicit state. -/

instance {ε α : Type} [DecidableEq ε] [DecidableEq α] : DecidableEq (Except ε α) := fun a b =>
  match a, b with
  | .ok x, .ok y => if h : x = y then .isTrue (by rw [h]) else .isFalse (by simp [h])
  | .error x, .error y => if h : x = y then .isTrue (by rw [h]) else .isFalse (by simp [h])
  | .ok _, .error _ => .isFalse (by simp)
  | .error _, .ok _ => .isFalse (by simp)

inductive CallerPC
  /-- about to run the fast-path READY check -/
  | start
  /-- blocked on the per-key lock -/
  | waiting
  /-- holds the per-key lock; the `attempt`-th execution of `load(...)` is in flight -/
  | loading (attempt : Nat)
  /-- returned: the observed handle, or the raised error -/
  | done (r : Except MgrErr Nat)
deriving DecidableEq

structure Conf where
  st : MgrState
  lock : Option Nat
  pcs : Nat → CallerPC

def initConf (s : MgrState) : Conf :=
  { st := s, lock := none, pcs := fun _ => .start }

/-- One attempt to take the per-key lock, running as far as possible without
suspending: if the lock is busy, block; otherwise acquire it, re-check READY
(returning at once if so), and otherwise enter the load critical section up to
the `load(...)` call. -/
def tryAcquire (k : String) (i : Nat) (c : Conf) : Conf :=
  match c.lock with
  | some _ => { c with pcs := Function.update c.pcs i .waiting }
  | none =>
    if isReadyWithModel k c.st then
      { c with pcs := Function.update c.pcs i (.done (.ok ((dictGet c.st.models k).getD 0))) }
    else
      { st := (load_enter k c.st).1, lock := some i,
        pcs := Function.update c.pcs i (.loading (load_enter k c.st).2) }

/-- One atomic step of caller `i` (no-op when `i` is done, or mid-load without
holding the lock, which the invariant rules out). -/
def stepCaller (oracle : LoadOracle) (k : String) (t : Int) (c : Conf) (i : Nat) : Conf :=
  match c.pcs i with
  | .done _ => c
  | .start =>
    if isReadyWithModel k c.st then
      { c with pcs := Function.update c.pcs i (.done (.ok ((dictGet c.st.models k).getD 0))) }
    else tryAcquire k i c
  | .waiting => tryAcquire k i c
  | .loading attempt =>
    if c.lock = some i then
      { st := (load_finish oracle k attempt t c.st).1, lock := none,
        pcs := Function.update c.pcs i (.done
          (match (load_finish oracle k attempt t c.st).2 with
            | .ok _ => .ok attempt
            | .error e => .error e)) }
    else c

def runConf (oracle : LoadOracle) (k : String) (t : Int) (sched : List Nat) (c : Conf) : Conf :=
  sched.foldl (stepCaller oracle k t) c

theorem load_enter_models (k : String) (s : MgrState) :
    dictGet (load_enter k s).1.models k = dictGet s.models k := by
  simp [load_enter, manage_memory_models_self]

theorem load_enter_count (k : String) (s : MgrState) :
    (load_enter k s).1.load_count = s.load_count + 1 := by
  simp [load_enter, manage_memory_load_count]

theorem load_enter_attempt (k : String) (s : MgrState) :
    (load_enter k s).2 = s.load_count := by
  simp [load_enter, manage_memory_load_count]

/-! ### The three phases of a single-flight execution (all-successful loads) -/

def PhaseA (k : String) (c : Conf) : Prop :=
  c.lock = none ∧ dictGet c.st.models k = none ∧ c.st.load_count = 0 ∧
  ∀ i, c.pcs i = .start ∨ c.pcs i = .waiting

def PhaseB (k : String) (c : Conf) : Prop :=
  ∃ j, c.lock = some j ∧ c.pcs j = .loading 0 ∧ dictGet c.st.models k = none ∧
    c.st.load_count = 1 ∧ ∀ i, i ≠ j → (c.pcs i = .start ∨ c.pcs i = .waiting)

def PhaseC (k : String) (c : Conf) : Prop :=
  c.lock = none ∧ dictGet c.st.models k = some 0 ∧
  dictGet c.st.model_status k = some .ready ∧ c.st.load_count = 1 ∧
  ∀ i, c.pcs i = .start ∨ c.pcs i = .waiting ∨ c.pcs i = .done (.ok 0)

def SFInv (k : String) (c : Conf) : Prop := PhaseA k c ∨ PhaseB k c ∨ PhaseC k c

theorem load_finish_ok_state (oracle : LoadOracle) (k : String) (a : Nat) (t : Int)
    (s : MgrState) (ho : oracle a = .ok ()) :
    (load_finish oracle k a t s).2 = .ok k ∧
    dictGet (load_finish oracle k a t s).1.models k = some a ∧
    dictGet (load_finish oracle k a t s).1.model_status k = some .ready ∧
    (load_finish oracle k a t s).1.load_count = s.load_count := by
  simp [load_finish, ho, _update_last_used, dictGet_dictSet_self]

theorem tryAcquire_A_to_B (k : String) (i : Nat) (c : Conf)
    (hlock : c.lock = none) (hm : dictGet c.st.models k = none) (hcnt : c.st.load_count = 0)
    (hpcs : ∀ i', c.pcs i' = .start ∨ c.pcs i' = .waiting) :
    PhaseB k (tryAcquire k i c) := by
  have hnr : isReadyWithModel k c.st = false := by simp [isReadyWithModel, hm]
  refine ⟨i, ?_, ?_, ?_, ?_, ?_⟩
  · simp [tryAcquire, hlock, hnr]
  · simp [tryAcquire, hlock, hnr, load_enter_attempt, hcnt]
  · simp [tryAcquire, hlock, hnr, load_enter_models, hm]
  · simp [tryAcquire, hlock, hnr, load_enter_count, hcnt]
  · intro i' hne
    simp only [tryAcquire, hlock, hnr, Bool.false_eq_true, if_false]
    rw [Function.update_noteq hne]
    exact hpcs i'

theorem sf_step (oracle : LoadOracle) (k : String) (t : Int)
    (ho : ∀ n, oracle n = .ok ()) (c : Conf) (i : Nat) (h : SFInv k c) :
    SFInv k (stepCaller oracle k t c i) := by
  rcases h with hA | hB | hC
  · -- Phase A: the load has not started; any step either blocks or enters the load.
    obtain ⟨hlock, hm, hcnt, hpcs⟩ := hA
    have hnr : isReadyWithModel k c.st = false := by simp [isReadyWithModel, hm]
    have hacq : SFInv k (tryAcquire k i c) :=
      Or.inr (Or.inl (tryAcquire_A_to_B k i c hlock hm hcnt hpcs))
    rcases hpcs i with hp | hp
    · simp only [stepCaller, hp, hnr, Bool.false_eq_true, if_false]
      exact hacq
    · simp only [stepCaller, hp]
      exact hacq
  · -- Phase B: one load in flight; the holder finishes it, everyone else blocks.
    obtain ⟨j, hlock, hj, hm, hcnt, hothers⟩ := hB
    have hnr : isReadyWithModel k c.st = false := by simp [isReadyWithModel, hm]
    by_cases hij : i = j
    · subst hij
      obtain ⟨hr, hms, hst, hlc⟩ := load_finish_ok_state oracle k 0 t c.st (ho 0)
      have hstep : stepCaller oracle k t c i =
          { st := (load_finish oracle k 0 t c.st).1, lock := none,
            pcs := Function.update c.pcs i (CallerPC.done (Except.ok 0)) } := by
        simp only [stepCaller, hj]
        rw [if_pos hlock, hr]
      rw [hstep]
      right; right
      refine ⟨rfl, hms, hst, ?_, ?_⟩
      · show (load_finish oracle k 0 t c.st).1.load_count = 1
        rw [hlc, hcnt]
      · intro i'
        show Function.update c.pcs i (CallerPC.done (Except.ok 0)) i' = _ ∨
          Function.update c.pcs i (CallerPC.done (Except.ok 0)) i' = _ ∨
          Function.update c.pcs i (CallerPC.done (Except.ok 0)) i' = _
        by_cases hii : i' = i
        · subst hii
          rw [Function.update_same]
          exact Or.inr (Or.inr rfl)
        · rw [Function.update_noteq hii]
          rcases hothers i' hii with hp | hp
          · exact Or.inl hp
          · exact Or.inr (Or.inl hp)
    · have hacq : SFInv k (tryAcquire k i c) := by
        right; left
        refine ⟨j, ?_, ?_, ?_, ?_, ?_⟩
        · simp [tryAcquire, hlock]
        · show (tryAcquire k i c).pcs j = CallerPC.loading 0
          simp only [tryAcquire, hlock]
          rw [Function.update_noteq (Ne.symm hij)]
          exact hj
        · show dictGet (tryAcquire k i c).st.models k = none
          simp only [tryAcquire, hlock]
          exact hm
        · show (tryAcquire k i c).st.load_count = 1
          simp only [tryAcquire, hlock]
          exact hcnt
        · intro i' hne
          show (tryAcquire k i c).pcs i' = _ ∨ (tryAcquire k i c).pcs i' = _
          simp only [tryAcquire, hlock]
          by_cases hii : i' = i
          · subst hii
            rw [Function.update_same]
            exact Or.inr rfl
          · rw [Function.update_noteq hii]
            exact hothers i' hne
      rcases hothers i hij with hp | hp
      · simp only [stepCaller, hp, hnr, Bool.false_eq_true, if_false]
        exact hacq
      · simp only [stepCaller, hp]
        exact hacq
  · -- Phase C: the key is READY with a stored handle; every step observes it.
    obtain ⟨hlock, hm, hst, hcnt, hpcs⟩ := hC
    have hr : isReadyWithModel k c.st = true := by simp [isReadyWithModel, hm, hst]
    have hdone : SFInv k { c with pcs := Function.update c.pcs i (CallerPC.done (Except.ok ((dictGet c.st.models k).getD 0))) } := by
      right; right
      refine ⟨hlock, hm, hst, hcnt, ?_⟩
      intro i'
      show Function.update c.pcs i (CallerPC.done (Except.ok ((dictGet c.st.models k).getD 0))) i' = _ ∨
        Function.update c.pcs i (CallerPC.done (Except.ok ((dictGet c.st.models k).getD 0))) i' = _ ∨
        Function.update c.pcs i (CallerPC.done (Except.ok ((dictGet c.st.models k).getD 0))) i' = _
      by_cases hii : i' = i
      · subst hii
        rw [Function.update_same, hm]
        exact Or.inr (Or.inr rfl)
      · rw [Function.update_noteq hii]
        exact hpcs i'
    rcases hpcs i with hp | hp | hp
    · have hstep : stepCaller oracle k t c i =
          { c with pcs := Function.update c.pcs i (CallerPC.done (Except.ok ((dictGet c.st.models k).getD 0))) } := by
        simp only [stepCaller, hp]
        rw [if_pos hr]
      rw [hstep]
      exact hdone
    · have hstep : stepCaller oracle k t c i =
          { c with pcs := Function.update c.pcs i (CallerPC.done (Except.ok ((dictGet c.st.models k).getD 0))) } := by
        simp only [stepCaller, hp, tryAcquire, hlock]
        rw [if_pos hr]
      rw [hstep]
      exact hdone
    · simp only [stepCaller, hp]
      exact Or.inr (Or.inr ⟨hlock, hm, hst, hcnt, hpcs⟩)

theorem sf_run (oracle : LoadOracle) (k : String) (t : Int)
    (ho : ∀ n, oracle n = .ok ()) (sched : List Nat) (c : Conf) (h : SFInv k c) :
    SFInv k (runConf oracle k t sched c) := by
  induction sched generalizing c with
  | nil => exact h
  | cons i sched ih => exact ih _ (sf_step oracle k t ho c i h)

/-- C1 (amended): for concurrent `load_model(k)` calls whose load attempts all
succeed, the underlying `load(...)` executes at most once and every completed
caller observes the same handle (that of the unique load).  When a load attempt
fails, a waiting caller re-attempts the load after observing the ERROR slot, so
the unamended claim fails (see the counterexample). -/
theorem single_flight_same_handle (oracle : LoadOracle) (k : String) (t : Int)
    (s0 : MgrState) (sched : List Nat)
    (ho : ∀ n, oracle n = .ok ())
    (hm : dictGet s0.models k = none)
    (hc : s0.load_count = 0) :
    (runConf oracle k t sched (initConf s0)).st.load_count ≤ 1 ∧
    (∀ i ri, (runConf oracle k t sched (initConf s0)).pcs i = .done ri → ri = .ok 0) ∧
    (∀ i j ri rj, (runConf oracle k t sched (initConf s0)).pcs i = .done ri →
      (runConf oracle k t sched (initConf s0)).pcs j = .done rj → ri = rj) := by
  have hinv : SFInv k (runConf oracle k t sched (initConf s0)) :=
    sf_run oracle k t ho sched (initConf s0)
      (Or.inl ⟨rfl, hm, hc, fun _ => Or.inl rfl⟩)
  have hdones : (runConf oracle k t sched (initConf s0)).st.load_count ≤ 1 ∧
      ∀ i ri, (runConf oracle k t sched (initConf s0)).pcs i = .done ri → ri = .ok 0 := by
    rcases hinv with hA | hB | hC
    · refine ⟨by rw [hA.2.2.1]; omega, ?_⟩
      intro i ri hri
      rcases hA.2.2.2 i with hp | hp <;> rw [hri] at hp <;> exact absurd hp (by simp)
    · obtain ⟨j, _, hj, _, hcnt, hothers⟩ := hB
      refine ⟨by rw [hcnt], ?_⟩
      intro i ri hri
      by_cases hij : i = j
      · subst hij
        rw [hri] at hj
        exact absurd hj (by simp)
      · rcases hothers i hij with hp | hp <;> rw [hri] at hp <;> exact absurd hp (by simp)
    · refine ⟨by rw [hC.2.2.2.1], ?_⟩
      intro i ri hri
      rcases hC.2.2.2.2 i with hp | hp | hp <;> rw [hri] at hp
      · exact absurd hp (by simp)
      · exact absurd hp (by simp)
      · injection hp with hp2
        try exact hp2
  refine ⟨hdones.1, hdones.2, ?_⟩
  intro i j ri rj hri hrj
  rw [hdones.2 i ri hri, hdones.2 j rj hrj]

theorem single_flight_same_handle_witness :
    (runConf (fun _ => .ok ()) "m" 0 [0, 1, 0, 1] (initConf initState)).pcs 0 =
      .done (.ok 0) ∧
    (runConf (fun _ => .ok ()) "m" 0 [0, 1, 0, 1] (initConf initState)).st.load_count ≤ 1 ∧
    (∀ i ri, (runConf (fun _ => .ok ()) "m" 0 [0, 1, 0, 1]
      (initConf initState)).pcs i = .done ri → ri = .ok 0) := by
  refine ⟨by decide, ?_, ?_⟩
  · exact (single_flight_same_handle (fun _ => .ok ()) "m" 0 initState [0, 1, 0, 1]
      (fun _ => rfl) (by decide) (by decide)).1
  · exact (single_flight_same_handle (fun _ => .ok ()) "m" 0 initState [0, 1, 0, 1]
      (fun _ => rfl) (by decide) (by decide)).2.1

/-- C1 as literally stated is false: with a failing first load, two concurrent
callers execute the underlying load twice and observe different outcomes (the
first a `loadError`, the second a fresh handle). -/
theorem single_flight_refuted :
    (runConf failThenOk "m" 0 [0, 1, 0, 1, 1] (initConf initState)).st.load_count = 2 ∧
    (runConf failThenOk "m" 0 [0, 1, 0, 1, 1] (initConf initState)).pcs 0 =
      .done (.error (.loadError 5)) ∧
    (runConf failThenOk "m" 0 [0, 1, 0, 1, 1] (initConf initState)).pcs 1 =
      .done (.ok 1) := by
  refine ⟨by decide, by decide, by decide⟩

end MlxServer
